import Mathlib

set_option maxHeartbeats 1000000

/-!
Shallow embedding of the 2048 framework (repository `2048`, files
`agent.h` plus the `board.h` / `action.h` / `weight.h` interfaces that
`agent.h` consumes).  The learning player (`player` in `agent.h`) and the
random environment (`rndenv`) are translated definition by definition.
C++ `float` arithmetic is modelled exactly over `ℚ`; C++ `int` is
modelled by `Int` (no overflow occurs in the ranges exercised here).
-/

/-- A board is the flat row-major list of the 16 cell ranks of the 4×4 grid. -/
abbrev Board := List Nat

/-- Modelled from the spec: `board.h` is not in `src/`.  `cell b p` is
`board::operator()(p)`, the rank stored at flat position `p`
(0 = empty, n = tile 2^n). -/
def cell (b : Board) (p : Nat) : Nat := b.getD p 0

/-- A default-constructed board: all 16 cells empty. -/
def emptyBoard : Board := List.replicate 16 0

/-- Modelled from the spec: one pass over an already-compressed line,
merging adjacent equal non-zero ranks into rank+1 with reward
`2^(rank+1)`, never re-merging a freshly merged cell in the same pass. -/
def mergeLine : List Nat → List Nat × Nat
  | [] => ([], 0)
  | [a] => ([a], 0)
  | a :: b :: rest =>
    if a = b ∧ a ≠ 0 then
      let m := mergeLine rest
      ((a + 1) :: m.1, m.2 + 2 ^ (a + 1))
    else
      let m := mergeLine (b :: rest)
      (a :: m.1, m.2)

/-- Modelled from the spec: slide one 4-cell line toward index 0:
compress (drop zeros), merge once, compress again (pad with zeros). -/
def lineLeft (l : List Nat) : List Nat × Nat :=
  let c := l.filter (fun x => x ≠ 0)
  let m := mergeLine c
  (m.1 ++ List.replicate (l.length - m.1.length) 0, m.2)

/-- Row `r` of a board (cells `4r .. 4r+3`). -/
def getRow (b : Board) (r : Nat) : List Nat :=
  [cell b (4 * r), cell b (4 * r + 1), cell b (4 * r + 2), cell b (4 * r + 3)]

/-- Column `c` of a board (cells `c, c+4, c+8, c+12`). -/
def getCol (b : Board) (c : Nat) : List Nat :=
  [cell b c, cell b (c + 4), cell b (c + 8), cell b (c + 12)]

/-- Reassemble a board from four rows. -/
def ofRows (r0 r1 r2 r3 : List Nat) : Board := r0 ++ r1 ++ r2 ++ r3

/-- Reassemble a board from four columns. -/
def ofCols (c0 c1 c2 c3 : List Nat) : Board :=
  [c0.getD 0 0, c1.getD 0 0, c2.getD 0 0, c3.getD 0 0,
   c0.getD 1 0, c1.getD 1 0, c2.getD 1 0, c3.getD 1 0,
   c0.getD 2 0, c1.getD 2 0, c2.getD 2 0, c3.getD 2 0,
   c0.getD 3 0, c1.getD 3 0, c2.getD 3 0, c3.getD 3 0]

/-- Slide every row toward column 0 ("left"). -/
def slideLeftB (b : Board) : Board × Nat :=
  let p0 := lineLeft (getRow b 0)
  let p1 := lineLeft (getRow b 1)
  let p2 := lineLeft (getRow b 2)
  let p3 := lineLeft (getRow b 3)
  (ofRows p0.1 p1.1 p2.1 p3.1, p0.2 + p1.2 + p2.2 + p3.2)

/-- Slide every row toward column 3 ("right"): reflect, slide left, reflect. -/
def slideRightB (b : Board) : Board × Nat :=
  let p0 := lineLeft (getRow b 0).reverse
  let p1 := lineLeft (getRow b 1).reverse
  let p2 := lineLeft (getRow b 2).reverse
  let p3 := lineLeft (getRow b 3).reverse
  (ofRows p0.1.reverse p1.1.reverse p2.1.reverse p3.1.reverse,
   p0.2 + p1.2 + p2.2 + p3.2)

/-- Slide every column toward row 0 ("up"). -/
def slideUpB (b : Board) : Board × Nat :=
  let p0 := lineLeft (getCol b 0)
  let p1 := lineLeft (getCol b 1)
  let p2 := lineLeft (getCol b 2)
  let p3 := lineLeft (getCol b 3)
  (ofCols p0.1 p1.1 p2.1 p3.1, p0.2 + p1.2 + p2.2 + p3.2)

/-- Slide every column toward row 3 ("down"): reflect, slide, reflect. -/
def slideDownB (b : Board) : Board × Nat :=
  let p0 := lineLeft (getCol b 0).reverse
  let p1 := lineLeft (getCol b 1).reverse
  let p2 := lineLeft (getCol b 2).reverse
  let p3 := lineLeft (getCol b 3).reverse
  (ofCols p0.1.reverse p1.1.reverse p2.1.reverse p3.1.reverse,
   p0.2 + p1.2 + p2.2 + p3.2)

/-- Raw directional slide (before the legality check).
Direction numbering fixed as 0 = up, 1 = right, 2 = down, 3 = left. -/
def slideDir (b : Board) (op : Nat) : Board × Nat :=
  match op with
  | 0 => slideUpB b
  | 1 => slideRightB b
  | 2 => slideDownB b
  | 3 => slideLeftB b
  | _ => (b, 0)

/-- Modelled from the spec: `board::slide(op)`.  Returns the resulting
board and the merge reward, or the board unchanged with reward `-1`
when the move is illegal (the slide leaves the grid bit-identical) or
the opcode is out of range. -/
def slide (b : Board) (op : Nat) : Board × Int :=
  if 4 ≤ op then (b, -1)
  else
    let br := slideDir b op
    if br.1 = b then (b, -1) else (br.1, (br.2 : Int))

/-- `op` is a legal move on `b`: the slide reward differs from `-1`. -/
def legalMove (b : Board) (op : Nat) : Prop := (slide b op).2 ≠ -1

instance (b : Board) (op : Nat) : Decidable (legalMove b op) := by
  unfold legalMove; infer_instance

/-- `player::extract_feature(after, a, b, c, d)`:
`after(a) * 25 * 25 * 25 + after(b) * 25 * 25 + after(c) * 25 + after(d)`. -/
def extract_feature (after : Board) (a b c d : Nat) : Nat :=
  cell after a * 25 * 25 * 25 + cell after b * 25 * 25 + cell after c * 25 + cell after d

/-- Modelled from the spec: `weight.h` is not in `src/`.  A weight table
is a dense table of `size` float entries; entry `j` is `val j`. -/
structure WTable where
  size : Nat
  val : Nat → ℚ

/-- The net: `std::vector<weight>`. -/
abbrev Net := List WTable

/-- Placeholder table used to express out-of-range `net[i]` totally;
C++ leaves this access undefined and the checked variants below track it. -/
def wdefault : WTable := ⟨0, fun _ => 0⟩

/-- `net[i]` as a total function. -/
def tableAt (net : Net) (i : Nat) : WTable := net.getD i wdefault

/-- `player::estimate_value(after)`: the sum of the 8 tuple-table lookups,
in the order of the source (4 rows then 4 columns). -/
def estimate_value (net : Net) (after : Board) : ℚ :=
  0 + (tableAt net 0).val (extract_feature after 0 1 2 3)
    + (tableAt net 1).val (extract_feature after 4 5 6 7)
    + (tableAt net 2).val (extract_feature after 8 9 10 11)
    + (tableAt net 3).val (extract_feature after 12 13 14 15)
    + (tableAt net 4).val (extract_feature after 0 4 8 12)
    + (tableAt net 5).val (extract_feature after 1 5 9 13)
    + (tableAt net 6).val (extract_feature after 2 6 10 14)
    + (tableAt net 7).val (extract_feature after 3 7 11 15)

/-- `net[i][j] += d` (total rendering; out-of-range `i` is a no-op here,
the checked variant below reports it instead). -/
def bump (net : Net) (i j : Nat) (d : ℚ) : Net :=
  let w := tableAt net i
  net.set i ⟨w.size, fun k => if k = j then w.val k + d else w.val k⟩

/-- `player::adjust_value(after, target)`: read the current estimate once,
form the single scalar `adjust = alpha * (target - current)`, and add it
to the one active entry of each of the 8 tables. -/
def adjust_value (alpha : ℚ) (net : Net) (after : Board) (target : ℚ) : Net :=
  let current := estimate_value net after
  let error := target - current
  let adjust := alpha * error
  let n0 := bump net 0 (extract_feature after 0 1 2 3) adjust
  let n1 := bump n0 1 (extract_feature after 4 5 6 7) adjust
  let n2 := bump n1 2 (extract_feature after 8 9 10 11) adjust
  let n3 := bump n2 3 (extract_feature after 12 13 14 15) adjust
  let n4 := bump n3 4 (extract_feature after 0 4 8 12) adjust
  let n5 := bump n4 5 (extract_feature after 1 5 9 13) adjust
  let n6 := bump n5 6 (extract_feature after 2 6 10 14) adjust
  let n7 := bump n6 7 (extract_feature after 3 7 11 15) adjust
  n7

/-- The feature index the player uses on table `i` (the 8 fixed
row/column tuple patterns of `estimate_value` / `adjust_value`). -/
def featureAt (after : Board) (i : Nat) : Nat :=
  match i with
  | 0 => extract_feature after 0 1 2 3
  | 1 => extract_feature after 4 5 6 7
  | 2 => extract_feature after 8 9 10 11
  | 3 => extract_feature after 12 13 14 15
  | 4 => extract_feature after 0 4 8 12
  | 5 => extract_feature after 1 5 9 13
  | 6 => extract_feature after 2 6 10 14
  | _ => extract_feature after 3 7 11 15

/-- One step of the trajectory: `struct step { int reward; board after; }`. -/
structure Step where
  reward : Int
  after : Board
deriving DecidableEq

def stepDefault : Step := ⟨0, emptyBoard⟩

/-- The mutable state of a `player`: weight tables, learning rate, history. -/
structure Player where
  net : Net
  alpha : ℚ
  history : List Step

/-- Modelled from the spec: `action.h` is not in `src/`.  An action is
slide(direction) — the code passes `-1` for "no slide found" —,
place(position, tile-rank), or none. -/
inductive Act where
  | slide (dir : Int)
  | place (pos : Nat) (tile : Nat)
  | none
deriving DecidableEq

/-- C++ float-to-int conversion: truncation toward zero. -/
def truncToInt (q : ℚ) : Int := if 0 ≤ q then ⌊q⌋ else ⌈q⌉

/-- The running maximum of `player::take_action`:
`best_op`, `best_reward`, `best_value` (an `int`!) and `best_after`. -/
structure SelSt where
  bop : Int
  brew : Int
  bval : Int
  bafter : Board

/-- Initial state: `best_op = -1`, `best_reward = -1`, `best_value = -99999`,
`best_after` default-constructed. -/
def selInit : SelSt := ⟨-1, -1, -99999, emptyBoard⟩

/-- One iteration of the direction loop in `player::take_action`:
skip illegal moves; otherwise compare `reward + value` (float) against
`best_reward + best_value` (int sum, converted to float), and on strict
improvement record the direction — storing the float `value` into the
`int best_value`, i.e. truncated toward zero. -/
def stepOp (net : Net) (before : Board) (s : SelSt) (op : Nat) : SelSt :=
  let ar := slide before op
  if ar.2 = -1 then s
  else
    let value : ℚ := estimate_value net ar.1
    if ((ar.2 : ℚ) + value > ((s.brew + s.bval : Int) : ℚ)) then
      ⟨(op : Int), ar.2, truncToInt value, ar.1⟩
    else s

/-- `player::take_action(before)`: run the four-direction loop in order
`0,1,2,3`; if some direction was recorded, push `{best_reward, best_after}`
onto the history; return `action::slide(best_op)` (with `best_op = -1`
when nothing was recorded). -/
def take_action (p : Player) (before : Board) : Player × Act :=
  let s := [0, 1, 2, 3].foldl (stepOp p.net before) selInit
  if s.bop ≠ -1 then
    ({ p with history := p.history ++ [⟨s.brew, s.bafter⟩] }, Act.slide s.bop)
  else (p, Act.slide s.bop)

/-- The descending loop `for (int t = history.size() - 2; t >= 0; t--)` of
`player::close_episode`: counter `k` runs the iterations `t = k-1, …, 0`,
each adjusting `history[t].after` toward
`history[t+1].reward + estimate_value(history[t+1].after)` on the
weights as already updated by the later iterations. -/
def tdLoop (alpha : ℚ) (h : List Step) : Net → Nat → Net
  | net, 0 => net
  | net, Nat.succ t =>
    let nxt := h.getD (t + 1) stepDefault
    tdLoop alpha h
      (adjust_value alpha net (h.getD t stepDefault).after
        ((nxt.reward : ℚ) + estimate_value net nxt.after)) t

/-- `player::close_episode`: no-op on an empty history or `alpha = 0`;
otherwise adjust the last step toward 0 and run the backward loop. -/
def close_episode (p : Player) : Player :=
  if p.history = [] then p
  else if p.alpha = 0 then p
  else
    let last := p.history.getD (p.history.length - 1) stepDefault
    let net1 := adjust_value p.alpha p.net last.after 0
    { p with net := tdLoop p.alpha p.history net1 (p.history.length - 1) }

/-- `player::init_weights`: emplace eight `25*25*25*25`-entry tables
(entries start at 0, per the spec of `weight.h`). -/
def init_weights : Net := List.replicate 8 ⟨25 * 25 * 25 * 25, fun _ => 0⟩

/-- `player::load_weights(path)`: `std::exit(-1)` when the file cannot be
opened, modelled as `Except.error` carrying the exit code; otherwise the
net is resized to the stored table count and every table is read back.
The file argument is the parsed content of an openable file, or `none`
for a file that cannot be opened. -/
def load_weights (file : Option Net) : Except Int Net :=
  match file with
  | Option.none => Except.error (-1)
  | Option.some ts => Except.ok ts

/-- `player::save_weights(path)`: `std::exit(-1)` when the file cannot be
opened for writing; otherwise writes the table count then every table. -/
def save_weights (openable : Bool) (net : Net) : Except Int (Nat × Net) :=
  if openable then Except.ok (net.length, net) else Except.error (-1)

/-- The whitespace tokenizer of the `agent` constructor
(`std::stringstream >> pair`), written over the character list. -/
def splitTokAux : List Char → List Char → List (List Char)
  | [], acc => if acc = [] then [] else [acc.reverse]
  | c :: cs, acc =>
    if c = ' ' then
      (if acc = [] then splitTokAux cs [] else acc.reverse :: splitTokAux cs [])
    else splitTokAux cs (c :: acc)

/-- The whitespace-separated tokens of a construction string. -/
def splitArgs (s : String) : List (List Char) := splitTokAux s.data []

/-- `pair.substr(0, pair.find('='))`: the key of one `key=value` token. -/
def keyOf (tok : List Char) : List Char := tok.takeWhile (fun c => c ≠ '=')

/-- The keys present in `meta` after the `player` constructor parsed
`"name=dummy role=player " + args`. -/
def metaKeys (args : String) : List (List Char) :=
  (splitArgs ("name=dummy role=player " ++ args)).map keyOf

/-- `meta.find(k) != meta.end()` for the player's construction string. -/
def hasKey (args k : String) : Bool := (metaKeys args).contains k.data

/-- The net right after the `player` constructor ran: starts empty,
`init_weights` appends the 8 tables only under an `init` key, and
`load_weights` replaces it only under a `load` key (exiting on an
unopenable file). -/
def constructedNet (args : String) (file : Option Net) : Except Int Net :=
  let n1 : Net := if hasKey args "init" then [] ++ init_weights else []
  if hasKey args "load" then load_weights file else Except.ok n1

/-- Checked table access `net[i][j]`: `none` when `i` or `j` is out of
bounds (undefined behaviour in the C++ source). -/
def lookupW (net : Net) (i j : Nat) : Option ℚ :=
  match net[i]? with
  | Option.none => Option.none
  | Option.some w => if j < w.size then Option.some (w.val j) else Option.none

/-- `player::estimate_value` with every table access bounds-checked. -/
def estimate_valueChk (net : Net) (after : Board) : Option ℚ := do
  let v0 ← lookupW net 0 (extract_feature after 0 1 2 3)
  let v1 ← lookupW net 1 (extract_feature after 4 5 6 7)
  let v2 ← lookupW net 2 (extract_feature after 8 9 10 11)
  let v3 ← lookupW net 3 (extract_feature after 12 13 14 15)
  let v4 ← lookupW net 4 (extract_feature after 0 4 8 12)
  let v5 ← lookupW net 5 (extract_feature after 1 5 9 13)
  let v6 ← lookupW net 6 (extract_feature after 2 6 10 14)
  let v7 ← lookupW net 7 (extract_feature after 3 7 11 15)
  pure (0 + v0 + v1 + v2 + v3 + v4 + v5 + v6 + v7)

/-- `net[i][j] += d` with the access bounds-checked. -/
def bumpChk (net : Net) (i j : Nat) (d : ℚ) : Option Net :=
  match net[i]? with
  | Option.none => Option.none
  | Option.some w =>
    if j < w.size then
      Option.some (net.set i ⟨w.size, fun k => if k = j then w.val k + d else w.val k⟩)
    else Option.none

/-- `player::adjust_value` with every table access bounds-checked. -/
def adjust_valueChk (alpha : ℚ) (net : Net) (after : Board) (target : ℚ) : Option Net := do
  let current ← estimate_valueChk net after
  let adjust := alpha * (target - current)
  let n0 ← bumpChk net 0 (extract_feature after 0 1 2 3) adjust
  let n1 ← bumpChk n0 1 (extract_feature after 4 5 6 7) adjust
  let n2 ← bumpChk n1 2 (extract_feature after 8 9 10 11) adjust
  let n3 ← bumpChk n2 3 (extract_feature after 12 13 14 15) adjust
  let n4 ← bumpChk n3 4 (extract_feature after 0 4 8 12) adjust
  let n5 ← bumpChk n4 5 (extract_feature after 1 5 9 13) adjust
  let n6 ← bumpChk n5 6 (extract_feature after 2 6 10 14) adjust
  let n7 ← bumpChk n6 7 (extract_feature after 3 7 11 15) adjust
  pure n7

/-- One iteration of the `take_action` direction loop with the
`estimate_value` table accesses bounds-checked. -/
def stepOpChk (net : Net) (before : Board) (s : Option SelSt) (op : Nat) : Option SelSt := do
  let st ← s
  let ar := slide before op
  if ar.2 = -1 then pure st
  else do
    let value ← estimate_valueChk net ar.1
    pure (if ((ar.2 : ℚ) + value > ((st.brew + st.bval : Int) : ℚ)) then
            (⟨(op : Int), ar.2, truncToInt value, ar.1⟩ : SelSt)
          else st)

/-- `player::take_action` with table accesses bounds-checked: `none`
means the call performed an out-of-bounds access. -/
def take_actionChk (p : Player) (before : Board) : Option (Player × Act) := do
  let s ← [0, 1, 2, 3].foldl (stepOpChk p.net before) (Option.some selInit)
  pure (if s.bop ≠ -1 then
          ({ p with history := p.history ++ [⟨s.brew, s.bafter⟩] }, Act.slide s.bop)
        else (p, Act.slide s.bop))

/-- The backward loop of `close_episode` with accesses bounds-checked. -/
def tdLoopChk (alpha : ℚ) (h : List Step) : Net → Nat → Option Net
  | net, 0 => Option.some net
  | net, Nat.succ t => do
    let nxt := h.getD (t + 1) stepDefault
    let tgt ← estimate_valueChk net nxt.after
    let net' ← adjust_valueChk alpha net (h.getD t stepDefault).after ((nxt.reward : ℚ) + tgt)
    tdLoopChk alpha h net' t

/-- `player::close_episode` with table accesses bounds-checked. -/
def close_episodeChk (p : Player) : Option Player :=
  if p.history = [] then Option.some p
  else if p.alpha = 0 then Option.some p
  else do
    let last := p.history.getD (p.history.length - 1) stepDefault
    let net1 ← adjust_valueChk p.alpha p.net last.after 0
    let netF ← tdLoopChk p.alpha p.history net1 (p.history.length - 1)
    pure { p with net := netF }

/-- The order in which `rndenv::take_action` scans the 16 positions after
`std::shuffle(space)`: the shuffled arrangement is an arbitrary
permutation `σ` of the positions, supplied explicitly. -/
def rndOrder (σ : Equiv.Perm (Fin 16)) : List (Fin 16) :=
  (List.finRange 16).map σ

/-- `popup(engine) ? 1 : 2` for a draw of `popup`, which is
`uniform_int_distribution<int>(0, 9)`: rank 1 (tile 2) on the nine
non-zero draws, rank 2 (tile 4) on draw 0. -/
def rndTile (draw : Fin 10) : Nat := if draw.val ≠ 0 then 1 else 2

/-- The position `rndenv::take_action` places on: the first position in
shuffled order whose cell is empty, if any. -/
def chosenPos (after : Board) (σ : Equiv.Perm (Fin 16)) : Option (Fin 16) :=
  (rndOrder σ).find? (fun p => cell after p.val == 0)

/-- `rndenv::take_action(after)` with the randomness (the shuffle result
`σ` and the `popup` draw) passed explicitly. -/
def rndenv_take_action (after : Board) (σ : Equiv.Perm (Fin 16)) (draw : Fin 10) : Act :=
  match chosenPos after σ with
  | Option.some pos => Act.place pos.val (rndTile draw)
  | Option.none => Act.none

/-- `reward + value_function(resulting_state)` for one direction — the
quantity the spec says `take_action` maximizes. -/
def moveScore (net : Net) (b : Board) (op : Nat) : ℚ :=
  ((slide b op).2 : ℚ) + estimate_value net (slide b op).1

/-- Fold a list of `(state, target)` adjustment calls over a net. -/
def applyAdjusts (alpha : ℚ) (net : Net) (l : List (Board × ℚ)) : Net :=
  l.foldl (fun n bt => adjust_value alpha n bt.1 bt.2) net

/-- Claim-side description of the backward loop (C4's wording): for `t`
from `k-1` down to `0`, the adjustment call on `history[t].after` has
target `history[t+1].reward + estimate_value(history[t+1].after)`, the
estimate taken on the weights as already modified by the later steps of
the same pass.  Returns the chronological list of `(state, target)`
calls. -/
def tdTargetsIdx (alpha : ℚ) (h : List Step) : Net → Nat → List (Board × ℚ)
  | _, 0 => []
  | net, Nat.succ t =>
    let nxt := h.getD (t + 1) stepDefault
    let tgt := (nxt.reward : ℚ) + estimate_value net nxt.after
    ((h.getD t stepDefault).after, tgt) ::
      tdTargetsIdx alpha h (adjust_value alpha net (h.getD t stepDefault).after tgt) t

/-- Claim-side description of the full backward TD pass (C4's wording):
the last step is adjusted toward target 0 first, then the earlier steps
from second-to-last down to first. -/
def tdTrace (alpha : ℚ) (net : Net) (h : List Step) : List (Board × ℚ) :=
  if h = [] then []
  else
    let last := h.getD (h.length - 1) stepDefault
    (last.after, (0 : ℚ)) ::
      tdTargetsIdx alpha h (adjust_value alpha net last.after 0) (h.length - 1)

/-- Well-formed net: the shape `player::init_weights` establishes —
8 tables of `25⁴ = 390625` entries each. -/
def WF (net : Net) : Prop :=
  net.length = 8 ∧ ∀ i, i < 8 → (tableAt net i).size = 390625

/-- Counterexample board: a single rank-1 tile at cell 5; all four
slides are legal, each with reward 0. -/
def cexBoard : Board := [0, 0, 0, 0, 0, 1, 0, 0, 0, 0, 0, 0, 0, 0, 0, 0]

/-- Counterexample net for C1: the after-state of sliding up is worth
7/8 (feature 625 of table 0), the after-state of sliding right is worth
1/2 (feature 1 of table 1); all other entries 0; all tables full-size.
Both values are exactly representable as C++ floats. -/
def cexNet1 : Net :=
  [⟨390625, fun k => if k = 625 then 7 / 8 else 0⟩,
   ⟨390625, fun k => if k = 1 then 1 / 2 else 0⟩,
   ⟨390625, fun _ => 0⟩, ⟨390625, fun _ => 0⟩, ⟨390625, fun _ => 0⟩,
   ⟨390625, fun _ => 0⟩, ⟨390625, fun _ => 0⟩, ⟨390625, fun _ => 0⟩]

/-- Counterexample net for C2: table 1 holds −200000 everywhere, so every
after-state is valued −200000 and every legal move scores below the
`best_reward + best_value = −100000` initialization of the loop. -/
def cexNet2 : Net :=
  [⟨390625, fun _ => 0⟩, ⟨390625, fun _ => -200000⟩,
   ⟨390625, fun _ => 0⟩, ⟨390625, fun _ => 0⟩, ⟨390625, fun _ => 0⟩,
   ⟨390625, fun _ => 0⟩, ⟨390625, fun _ => 0⟩, ⟨390625, fun _ => 0⟩]

/-- Invariant of the direction loop of `take_action` after processing the
directions in `P` (no assumption on the value estimates): either nothing
was recorded and every legal direction seen so far scores at most
−100000, or the recorded direction `d` is legal, was seen, scores above
−100000, its data fills the running state, and the running threshold
`best_reward + best_value` stays at least −100000. -/
def selInv2 (net : Net) (b : Board) (P : List Nat) (s : SelSt) : Prop :=
  (s = selInit ∧ ∀ op ∈ P, legalMove b op → moveScore net b op ≤ -100000) ∨
  ∃ d ∈ P, legalMove b d ∧ s.bop = (d : Int) ∧ s.brew = (slide b d).2 ∧
    s.bval = truncToInt (estimate_value net (slide b d).1) ∧
    s.bafter = (slide b d).1 ∧ moveScore net b d > -100000 ∧
    (-100000 : Int) ≤ s.brew + s.bval

/-- Invariant of the direction loop of `take_action` when every legal
direction's value estimate is an integer (so the `int best_value`
truncation is lossless): either nothing was recorded and no direction
seen so far is legal, or the recorded direction is the first maximizer of
`reward + value` among the directions seen. -/
def selInv1 (net : Net) (b : Board) (P : List Nat) (s : SelSt) : Prop :=
  (s = selInit ∧ ∀ op ∈ P, ¬ legalMove b op) ∨
  ∃ d ∈ P, legalMove b d ∧ s.bop = (d : Int) ∧ s.brew = (slide b d).2 ∧
    ((s.bval : ℚ)) = estimate_value net (slide b d).1 ∧
    s.bafter = (slide b d).1 ∧
    (∀ op ∈ P, legalMove b op → moveScore net b op ≤ moveScore net b d) ∧
    (∀ op ∈ P, legalMove b op → moveScore net b op = moveScore net b d → d ≤ op)

/-! ### Helper lemmas -/

theorem truncToInt_intCast (z : Int) : truncToInt ((z : ℚ)) = z := by
  unfold truncToInt
  split <;> simp

theorem cell_emptyBoard (p : Nat) : cell emptyBoard p = 0 := by
  unfold cell emptyBoard
  rw [List.getD_eq_getElem?_getD, List.getElem?_replicate]
  split <;> rfl

theorem tableAt_getElem? (net : Net) (i : Nat) (h : i < net.length) :
    net[i]? = Option.some (tableAt net i) := by
  simp [tableAt, List.getD_eq_getElem?_getD, List.getElem?_eq_getElem h]

theorem tableAt_mem (net : Net) (i : Nat) (h : i < net.length) : tableAt net i ∈ net := by
  rw [tableAt, List.getD_eq_getElem net wdefault h]
  exact List.getElem_mem h

theorem length_bump (net : Net) (i j : Nat) (d : ℚ) :
    (bump net i j d).length = net.length := by
  simp [bump]

theorem tableAt_bump_self (net : Net) (i j : Nat) (d : ℚ) (h : i < net.length) :
    tableAt (bump net i j d) i =
      ⟨(tableAt net i).size,
       fun k => if k = j then (tableAt net i).val k + d else (tableAt net i).val k⟩ := by
  simp [bump, tableAt, List.getD_eq_getElem?_getD, List.getElem?_set_self h]

theorem tableAt_bump_ne (net : Net) (i j : Nat) (d : ℚ) (i' : Nat) (h : i ≠ i') :
    tableAt (bump net i j d) i' = tableAt net i' := by
  simp [bump, tableAt, List.getD_eq_getElem?_getD, List.getElem?_set_ne h]

theorem extract_feature_lt (b : Board) (p0 p1 p2 p3 : Nat)
    (h0 : cell b p0 < 25) (h1 : cell b p1 < 25) (h2 : cell b p2 < 25)
    (h3 : cell b p3 < 25) : extract_feature b p0 p1 p2 p3 < 390625 := by
  unfold extract_feature
  omega

theorem featureAt_lt (b : Board) (hb : ∀ p, p < 16 → cell b p < 25)
    (i : Nat) (hi : i < 8) : featureAt b i < 390625 := by
  interval_cases i <;>
    exact extract_feature_lt b _ _ _ _
      (hb _ (by omega)) (hb _ (by omega)) (hb _ (by omega)) (hb _ (by omega))

theorem lookupW_eq (net : Net) (i j : Nat) (hi : i < net.length)
    (hj : j < (tableAt net i).size) :
    lookupW net i j = Option.some ((tableAt net i).val j) := by
  unfold lookupW
  rw [tableAt_getElem? net i hi]
  simp [hj]

theorem bumpChk_eq (net : Net) (i j : Nat) (d : ℚ) (hi : i < net.length)
    (hj : j < (tableAt net i).size) :
    bumpChk net i j d = Option.some (bump net i j d) := by
  unfold bumpChk
  rw [tableAt_getElem? net i hi]
  dsimp only
  rw [if_pos hj]
  rfl

theorem WF_bump (net : Net) (i j : Nat) (d : ℚ) (hwf : WF net) :
    WF (bump net i j d) := by
  obtain ⟨hlen, hsz⟩ := hwf
  refine ⟨by simp [length_bump, hlen], fun i' hi' => ?_⟩
  by_cases h : i = i'
  · subst h
    by_cases hl : i < net.length
    · rw [tableAt_bump_self net i j d hl]
      exact hsz i hi'
    · unfold bump tableAt
      rw [List.set_eq_of_length_le (by omega)]
      exact hsz i hi'
  · rw [tableAt_bump_ne net i j d i' h]
    exact hsz i' hi'

theorem estimate_valueChk_eq (net : Net) (b : Board) (hwf : WF net)
    (hb : ∀ p, p < 16 → cell b p < 25) :
    estimate_valueChk net b = Option.some (estimate_value net b) := by
  obtain ⟨hlen, hsz⟩ := hwf
  have hf : ∀ i, i < 8 → ∀ p0 p1 p2 p3, p0 < 16 → p1 < 16 → p2 < 16 → p3 < 16 →
      extract_feature b p0 p1 p2 p3 < (tableAt net i).size := by
    intro i hi p0 p1 p2 p3 q0 q1 q2 q3
    rw [hsz i hi]
    exact extract_feature_lt b _ _ _ _ (hb _ q0) (hb _ q1) (hb _ q2) (hb _ q3)
  unfold estimate_valueChk estimate_value
  rw [lookupW_eq net 0 _ (by omega) (hf 0 (by omega) _ _ _ _ (by omega) (by omega) (by omega) (by omega)),
      lookupW_eq net 1 _ (by omega) (hf 1 (by omega) _ _ _ _ (by omega) (by omega) (by omega) (by omega)),
      lookupW_eq net 2 _ (by omega) (hf 2 (by omega) _ _ _ _ (by omega) (by omega) (by omega) (by omega)),
      lookupW_eq net 3 _ (by omega) (hf 3 (by omega) _ _ _ _ (by omega) (by omega) (by omega) (by omega)),
      lookupW_eq net 4 _ (by omega) (hf 4 (by omega) _ _ _ _ (by omega) (by omega) (by omega) (by omega)),
      lookupW_eq net 5 _ (by omega) (hf 5 (by omega) _ _ _ _ (by omega) (by omega) (by omega) (by omega)),
      lookupW_eq net 6 _ (by omega) (hf 6 (by omega) _ _ _ _ (by omega) (by omega) (by omega) (by omega)),
      lookupW_eq net 7 _ (by omega) (hf 7 (by omega) _ _ _ _ (by omega) (by omega) (by omega) (by omega))]
  rfl

theorem adjust_valueChk_eq (alpha : ℚ) (net : Net) (b : Board) (target : ℚ)
    (hwf : WF net) (hb : ∀ p, p < 16 → cell b p < 25) :
    adjust_valueChk alpha net b target = Option.some (adjust_value alpha net b target) := by
  have hbump : ∀ (m : Net), WF m → ∀ i, i < 8 → ∀ p0 p1 p2 p3 (d : ℚ),
      p0 < 16 → p1 < 16 → p2 < 16 → p3 < 16 →
      bumpChk m i (extract_feature b p0 p1 p2 p3) d =
        Option.some (bump m i (extract_feature b p0 p1 p2 p3) d) := by
    intro m hm i hi p0 p1 p2 p3 d q0 q1 q2 q3
    refine bumpChk_eq m i _ d (by have := hm.1; omega) ?_
    rw [hm.2 i hi]
    exact extract_feature_lt b _ _ _ _ (hb _ q0) (hb _ q1) (hb _ q2) (hb _ q3)
  unfold adjust_valueChk adjust_value
  rw [estimate_valueChk_eq net b hwf hb]
  simp only [Option.bind_eq_bind, Option.some_bind]
  rw [hbump _ hwf 0 (by omega) _ _ _ _ _ (by omega) (by omega) (by omega) (by omega)]
  simp only [Option.some_bind]
  rw [hbump _ (WF_bump _ _ _ _ hwf) 1 (by omega) _ _ _ _ _
        (by omega) (by omega) (by omega) (by omega)]
  simp only [Option.some_bind]
  rw [hbump _ (WF_bump _ _ _ _ (WF_bump _ _ _ _ hwf)) 2 (by omega) _ _ _ _ _
        (by omega) (by omega) (by omega) (by omega)]
  simp only [Option.some_bind]
  rw [hbump _ (WF_bump _ _ _ _ (WF_bump _ _ _ _ (WF_bump _ _ _ _ hwf))) 3 (by omega)
        _ _ _ _ _ (by omega) (by omega) (by omega) (by omega)]
  simp only [Option.some_bind]
  rw [hbump _ (WF_bump _ _ _ _ (WF_bump _ _ _ _ (WF_bump _ _ _ _ (WF_bump _ _ _ _ hwf))))
        4 (by omega) _ _ _ _ _ (by omega) (by omega) (by omega) (by omega)]
  simp only [Option.some_bind]
  rw [hbump _ (WF_bump _ _ _ _ (WF_bump _ _ _ _ (WF_bump _ _ _ _ (WF_bump _ _ _ _
        (WF_bump _ _ _ _ hwf))))) 5 (by omega) _ _ _ _ _
        (by omega) (by omega) (by omega) (by omega)]
  simp only [Option.some_bind]
  rw [hbump _ (WF_bump _ _ _ _ (WF_bump _ _ _ _ (WF_bump _ _ _ _ (WF_bump _ _ _ _
        (WF_bump _ _ _ _ (WF_bump _ _ _ _ hwf)))))) 6 (by omega) _ _ _ _ _
        (by omega) (by omega) (by omega) (by omega)]
  simp only [Option.some_bind]
  rw [hbump _ (WF_bump _ _ _ _ (WF_bump _ _ _ _ (WF_bump _ _ _ _ (WF_bump _ _ _ _
        (WF_bump _ _ _ _ (WF_bump _ _ _ _ (WF_bump _ _ _ _ hwf))))))) 7 (by omega)
        _ _ _ _ _ (by omega) (by omega) (by omega) (by omega)]
  simp only [Option.some_bind]
  rfl

/-! ### Claim theorems -/

/-- Claim C3: for every trajectory history and weight-store contents, if
the history is empty or the learning rate `alpha` is 0, then
`player::close_episode` leaves the player — in particular every entry of
every weight table — bit-identical to its value before the call. -/
theorem close_episode_noop (p : Player) (h : p.history = [] ∨ p.alpha = 0) :
    close_episode p = p ∧
    ∀ i j, (tableAt (close_episode p).net i).val j = (tableAt p.net i).val j := by
  have hmain : close_episode p = p := by
    unfold close_episode
    rcases h with h | h
    · simp [h]
    · by_cases hh : p.history = [] <;> simp [h, hh]
  exact ⟨hmain, fun i j => by rw [hmain]⟩

/-- Witness for C3 at a concrete player (alpha = 0, non-empty history). -/
theorem close_episode_noop_witness :
    close_episode ⟨init_weights, 0, [⟨4, emptyBoard⟩]⟩ =
      (⟨init_weights, 0, [⟨4, emptyBoard⟩]⟩ : Player) :=
  (close_episode_noop ⟨init_weights, 0, [⟨4, emptyBoard⟩]⟩ (Or.inr rfl)).1

/-- Claim C5: `player::adjust_value` computes the single scalar
`alpha * (target - estimate_value(board))` with the estimate read once
before any mutation, and adds that same scalar to exactly one entry in
each of the 8 tuple weight tables — the entry at that table's feature
index for the board; no other entry of any table changes. -/
theorem adjust_value_shared_scalar (alpha : ℚ) (net : Net) (b : Board) (target : ℚ)
    (hlen : net.length = 8) :
    (adjust_value alpha net b target).length = 8 ∧
    ∀ i, i < 8 →
      (tableAt (adjust_value alpha net b target) i).size = (tableAt net i).size ∧
      ∀ j, (tableAt (adjust_value alpha net b target) i).val j =
        (tableAt net i).val j +
          (if j = featureAt b i then alpha * (target - estimate_value net b) else 0) := by
  constructor
  · simp [adjust_value, length_bump, hlen]
  · intro i hi
    interval_cases i <;>
      refine ⟨?_, fun j => ?_⟩ <;>
        simp [adjust_value, tableAt_bump_self, tableAt_bump_ne, length_bump, hlen,
          featureAt] <;>
        by_cases hj : j = featureAt b 0 <;> split <;> ring

/-- Witness for C5 at a concrete net and board. -/
theorem adjust_value_shared_scalar_witness :
    (adjust_value 1 init_weights emptyBoard 4).length = 8 ∧
    ∀ i, i < 8 →
      (tableAt (adjust_value 1 init_weights emptyBoard 4) i).size =
        (tableAt init_weights i).size ∧
      ∀ j, (tableAt (adjust_value 1 init_weights emptyBoard 4) i).val j =
        (tableAt init_weights i).val j +
          (if j = featureAt emptyBoard i then
            1 * (4 - estimate_value init_weights emptyBoard) else 0) :=
  adjust_value_shared_scalar 1 init_weights emptyBoard 4 rfl

/-- Claim C6: `player::extract_feature` returns exactly
`rank(p0)*25³ + rank(p1)*25² + rank(p2)*25 + rank(p3)` where `rank(p)` is
the cell value stored at position `p`. -/
theorem extract_feature_base25 (after : Board) (p0 p1 p2 p3 : Nat) :
    extract_feature after p0 p1 p2 p3 =
      cell after p0 * 25 ^ 3 + cell after p1 * 25 ^ 2 + cell after p2 * 25 + cell after p3 := by
  unfold extract_feature
  ring

/-- Claim C9: if the weight file cannot be opened, `player::load_weights`
(and likewise `save_weights` on an unopenable output file) terminates the
process with the non-zero exit status `-1` (`std::exit(-1)`), never a
recoverable error value; on an openable file neither terminates. -/
theorem weights_io_fatal_on_unopenable :
    (load_weights Option.none = Except.error (-1) ∧ (-1 : Int) ≠ 0) ∧
    (∀ ts : Net, load_weights (Option.some ts) = Except.ok ts) ∧
    (∀ net : Net, save_weights false net = Except.error (-1)) ∧
    (∀ net : Net, save_weights true net = Except.ok (net.length, net)) :=
  ⟨⟨rfl, by decide⟩, fun _ => rfl, fun _ => rfl, fun _ => rfl⟩

/-- Claim C7: on a board whose cell ranks are all < 25, and a net of
8 tables of 25⁴ entries each (the shape `init_weights` creates), every
feature index of the 8 tuple patterns lies below 25⁴ = 390625, so every
table lookup of `estimate_value` and every table write of `adjust_value`
is within bounds (the checked variants succeed); a rank ≥ 25 violates
the bound. -/
theorem feature_indices_within_tables (b : Board)
    (hb : ∀ p, p < 16 → cell b p < 25) :
    (∀ i, i < 8 → featureAt b i < 390625) ∧
    init_weights.length = 8 ∧
    (∀ w ∈ init_weights, w.size = 390625) ∧
    (∀ net : Net, WF net →
      estimate_valueChk net b = Option.some (estimate_value net b) ∧
      ∀ alpha target,
        adjust_valueChk alpha net b target =
          Option.some (adjust_value alpha net b target)) ∧
    ¬ extract_feature ((25 : Nat) :: List.replicate 15 0) 0 1 2 3 < 390625 := by
  refine ⟨featureAt_lt b hb, rfl, ?_, ?_, by decide⟩
  · intro w hw
    rw [List.eq_of_mem_replicate hw]
  · intro net hwf
    exact ⟨estimate_valueChk_eq net b hwf hb,
      fun alpha target => adjust_valueChk_eq alpha net b target hwf hb⟩

/-- Witness for C7 at the all-empty board. -/
theorem feature_indices_within_tables_witness :
    (∀ i, i < 8 → featureAt emptyBoard i < 390625) ∧
    init_weights.length = 8 ∧
    (∀ w ∈ init_weights, w.size = 390625) ∧
    (∀ net : Net, WF net →
      estimate_valueChk net emptyBoard =
        Option.some (estimate_value net emptyBoard) ∧
      ∀ alpha target,
        adjust_valueChk alpha net emptyBoard target =
          Option.some (adjust_value alpha net emptyBoard target)) ∧
    ¬ extract_feature ((25 : Nat) :: List.replicate 15 0) 0 1 2 3 < 390625 :=
  feature_indices_within_tables emptyBoard
    (fun p _ => by rw [cell_emptyBoard]; omega)

theorem tdTargetsIdx_length (alpha : ℚ) (h : List Step) (net : Net) (k : Nat) :
    (tdTargetsIdx alpha h net k).length = k := by
  induction k generalizing net with
  | zero => rfl
  | succ t ih => simp [tdTargetsIdx, ih]

theorem tdLoop_eq_applyAdjusts (alpha : ℚ) (h : List Step) (net : Net) (k : Nat) :
    tdLoop alpha h net k = applyAdjusts alpha net (tdTargetsIdx alpha h net k) := by
  induction k generalizing net with
  | zero => rfl
  | succ t ih =>
    rw [tdLoop, tdTargetsIdx]
    simp only [applyAdjusts, List.foldl_cons]
    exact ih _

/-- Claim C4: on a non-empty `n`-step trajectory and nonzero learning
rate, `player::close_episode` performs exactly `n` weight adjustments in
backward order: the final net is the fold of `adjust_value` over the
trace `tdTrace`, whose length is `n`, whose first call adjusts the last
step's state toward target 0, and whose later calls (built by
`tdTargetsIdx`, for `t` from `n-2` down to `0`) adjust `history[t].after`
toward `history[t+1].reward + estimate_value(history[t+1].after)` with
the estimate taken on the weights already modified by the preceding
calls of the same pass. -/
theorem close_episode_backward_pass (p : Player)
    (hh : p.history ≠ []) (ha : p.alpha ≠ 0) :
    (close_episode p).net = applyAdjusts p.alpha p.net (tdTrace p.alpha p.net p.history) ∧
    (tdTrace p.alpha p.net p.history).length = p.history.length ∧
    (tdTrace p.alpha p.net p.history).head? =
      Option.some ((p.history.getD (p.history.length - 1) stepDefault).after, (0 : ℚ)) := by
  have hlen : 0 < p.history.length := List.length_pos.mpr hh
  refine ⟨?_, ?_, ?_⟩
  · unfold close_episode tdTrace
    rw [if_neg hh, if_neg ha, if_neg hh]
    simp only [applyAdjusts, List.foldl_cons]
    rw [tdLoop_eq_applyAdjusts]
    rfl
  · unfold tdTrace
    rw [if_neg hh]
    simp [tdTargetsIdx_length]
    omega
  · unfold tdTrace
    rw [if_neg hh]
    rfl

/-- Witness for C4 at a concrete two-step trajectory. -/
theorem close_episode_backward_pass_witness :
    (close_episode ⟨init_weights, 1, [⟨4, emptyBoard⟩, ⟨8, emptyBoard⟩]⟩).net =
      applyAdjusts 1 init_weights
        (tdTrace 1 init_weights [⟨4, emptyBoard⟩, ⟨8, emptyBoard⟩]) ∧
    (tdTrace 1 init_weights [⟨4, emptyBoard⟩, ⟨8, emptyBoard⟩]).length = 2 ∧
    (tdTrace 1 init_weights [⟨4, emptyBoard⟩, ⟨8, emptyBoard⟩]).head? =
      Option.some (emptyBoard, (0 : ℚ)) :=
  close_episode_backward_pass ⟨init_weights, 1, [⟨4, emptyBoard⟩, ⟨8, emptyBoard⟩]⟩
    (by decide) (by norm_num)

theorem mem_rndOrder (σ : Equiv.Perm (Fin 16)) (p : Fin 16) : p ∈ rndOrder σ := by
  unfold rndOrder
  exact List.mem_map.mpr ⟨σ.symm p, List.mem_finRange _, σ.apply_symm_apply p⟩

theorem chosenPos_trans_swap (after : Board) (σ : Equiv.Perm (Fin 16))
    (c1 c2 : Fin 16) (h1 : cell after c1.val = 0) (h2 : cell after c2.val = 0) :
    chosenPos after (σ.trans (Equiv.swap c1 c2)) =
      Option.map (Equiv.swap c1 c2) (chosenPos after σ) := by
  unfold chosenPos rndOrder
  have hmap : (List.finRange 16).map (σ.trans (Equiv.swap c1 c2)) =
      ((List.finRange 16).map σ).map (Equiv.swap c1 c2) := by
    rw [List.map_map]
    rfl
  rw [hmap, List.find?_map]
  have hpred : ((fun p : Fin 16 => cell after p.val == 0) ∘ Equiv.swap c1 c2) =
      fun p : Fin 16 => cell after p.val == 0 := by
    funext x
    simp only [Function.comp_apply, Equiv.swap_apply_def]
    by_cases hx1 : x = c1
    · simp [hx1, h1, h2]
    · by_cases hx2 : x = c2
      · rcases eq_or_ne c2 c1 with he | he <;> simp [hx1, hx2, he, h1, h2]
      · simp [hx1, hx2]
  rw [hpred]

/-- Claim C8: `rndenv::take_action` — with the shuffle outcome `σ` and the
`popup` draw made explicit — returns `none` exactly when the board has no
empty cell; any returned placement is on an empty cell with tile rank 1
(value 2) on the nine draws 1..9 and rank 2 (value 4) on the one draw 0
(hence probabilities 9/10 and 1/10 under the uniform draw); and under a
uniform shuffle the chosen empty cell is uniform: any two empty cells are
chosen by equally many of the 16! shuffle outcomes. -/
theorem rndenv_place_empty_cell :
    (∀ (after : Board) (σ : Equiv.Perm (Fin 16)) (draw : Fin 10),
      rndenv_take_action after σ draw = Act.none ↔
        ∀ p : Fin 16, cell after p.val ≠ 0) ∧
    (∀ (after : Board) (σ : Equiv.Perm (Fin 16)) (draw : Fin 10) (pos tile : Nat),
      rndenv_take_action after σ draw = Act.place pos tile →
        cell after pos = 0 ∧ tile = rndTile draw ∧ (tile = 1 ∨ tile = 2)) ∧
    ((Finset.univ.filter fun d : Fin 10 => rndTile d = 1).card = 9 ∧
     (Finset.univ.filter fun d : Fin 10 => rndTile d = 2).card = 1) ∧
    (∀ (after : Board) (c1 c2 : Fin 16),
      cell after c1.val = 0 → cell after c2.val = 0 →
      (Finset.univ.filter fun σ : Equiv.Perm (Fin 16) =>
          chosenPos after σ = Option.some c1).card =
      (Finset.univ.filter fun σ : Equiv.Perm (Fin 16) =>
          chosenPos after σ = Option.some c2).card) := by
  refine ⟨?_, ?_, ⟨by decide, by decide⟩, ?_⟩
  · intro after σ draw
    unfold rndenv_take_action
    cases hc : chosenPos after σ with
    | none =>
      simp only []
      constructor
      · intro _ p
        rw [chosenPos, List.find?_eq_none] at hc
        have := hc p (mem_rndOrder σ p)
        simpa using this
      · intro _
        trivial
    | some pos =>
      simp only []
      constructor
      · intro habs
        exact absurd habs (by simp)
      · intro hfull
        have := List.find?_some hc
        exact absurd (by simpa using this) (hfull pos)
  · intro after σ draw pos tile h
    unfold rndenv_take_action at h
    cases hc : chosenPos after σ with
    | none => rw [hc] at h; exact absurd h (by simp)
    | some q =>
      rw [hc] at h
      dsimp only at h
      have hq := List.find?_some hc
      have hcell : cell after q.val = 0 := by simpa using hq
      injection h with hp ht
      subst hp
      subst ht
      refine ⟨hcell, rfl, ?_⟩
      unfold rndTile
      split <;> simp
  · intro after c1 c2 h1 h2
    have key : ∀ τ : Equiv.Perm (Fin 16),
        (τ.trans (Equiv.swap c1 c2)).trans (Equiv.swap c1 c2) = τ := by
      intro τ
      ext x
      simp [Equiv.swap_apply_self]
    refine Finset.card_bij (fun σ _ => σ.trans (Equiv.swap c1 c2)) ?_ ?_ ?_
    · intro σ hσ
      rw [Finset.mem_filter] at hσ ⊢
      refine ⟨Finset.mem_univ _, ?_⟩
      rw [chosenPos_trans_swap after σ c1 c2 h1 h2, hσ.2]
      simp [Equiv.swap_apply_left]
    · intro a ha b hb heq
      have := congrArg (fun τ : Equiv.Perm (Fin 16) => τ.trans (Equiv.swap c1 c2)) heq
      simpa [key] using this
    · intro τ hτ
      rw [Finset.mem_filter] at hτ
      refine ⟨τ.trans (Equiv.swap c1 c2), ?_, key τ⟩
      rw [Finset.mem_filter]
      refine ⟨Finset.mem_univ _, ?_⟩
      rw [chosenPos_trans_swap after τ c1 c2 h1 h2, hτ.2]
      simp [Equiv.swap_apply_right]

/-- Witness for C8: a full board yields the none action, and on the empty
board cells 0 and 1 are chosen by equally many shuffle outcomes. -/
theorem rndenv_place_empty_cell_witness :
    rndenv_take_action (List.replicate 16 1) 1 0 = Act.none ∧
    (Finset.univ.filter fun σ : Equiv.Perm (Fin 16) =>
        chosenPos emptyBoard σ = Option.some 0).card =
    (Finset.univ.filter fun σ : Equiv.Perm (Fin 16) =>
        chosenPos emptyBoard σ = Option.some 1).card :=
  ⟨(rndenv_place_empty_cell.1 (List.replicate 16 1) 1 0).mpr (by decide),
   rndenv_place_empty_cell.2.2.2 emptyBoard 0 1 (by decide) (by decide)⟩

theorem estimate_valueChk_nil (b : Board) :
    estimate_valueChk [] b = Option.none := rfl

theorem adjust_valueChk_nil (alpha : ℚ) (b : Board) (target : ℚ) :
    adjust_valueChk alpha [] b target = Option.none := rfl

theorem stepOpChk_none (net : Net) (before : Board) (op : Nat) :
    stepOpChk net before Option.none op = Option.none := rfl

theorem stepOpChk_nil (before : Board) (st : SelSt) (op : Nat) :
    stepOpChk [] before (Option.some st) op =
      if (slide before op).2 = -1 then Option.some st else Option.none := by
  unfold stepOpChk
  simp only [Option.bind_eq_bind, Option.some_bind]
  split
  · rfl
  · rw [estimate_valueChk_nil]
    rfl

/-- Claim C10: a player constructed from an argument string with neither
an `init` nor a `load` key has an empty weight-table vector, so a
subsequent `take_action` on a board with a legal move, or `close_episode`
with nonzero alpha and non-empty history, performs the unconditional
`net[0]`..`net[7]` indexing of `estimate_value` / `adjust_value` out of
bounds (the checked variants report the access failure). -/
theorem uninitialized_net_out_of_bounds (args : String) (file : Option Net)
    (hinit : hasKey args "init" = false) (hload : hasKey args "load" = false) :
    constructedNet args file = Except.ok [] ∧
    (∀ (alpha : ℚ) (hist : List Step) (b : Board),
      (∃ op, op < 4 ∧ legalMove b op) →
      take_actionChk ⟨[], alpha, hist⟩ b = Option.none) ∧
    (∀ p : Player, p.net = [] → p.alpha ≠ 0 → p.history ≠ [] →
      close_episodeChk p = Option.none) := by
  refine ⟨?_, ?_, ?_⟩
  · unfold constructedNet
    rw [hinit, hload]
    rfl
  · intro alpha hist b hex
    obtain ⟨op, hop, hleg⟩ := hex
    unfold legalMove at hleg
    unfold take_actionChk
    simp only [List.foldl_cons, List.foldl_nil]
    by_cases h0 : (slide b 0).2 = -1 <;> by_cases h1 : (slide b 1).2 = -1 <;>
      by_cases h2 : (slide b 2).2 = -1 <;> by_cases h3 : (slide b 3).2 = -1 <;>
      simp only [stepOpChk_nil, stepOpChk_none, h0, h1, h2, h3, if_true, if_false,
        ite_true, ite_false, if_pos, if_neg, not_false_eq_true, Option.none_bind] <;>
      first
        | rfl
        | (interval_cases op <;> simp_all)
  · intro p hnet ha hh
    unfold close_episodeChk
    rw [if_neg hh, if_neg ha]
    simp only [hnet, adjust_valueChk_nil, Option.bind_eq_bind, Option.none_bind]

/-- Witness for C10: the construction string `"alpha=0.1"` (no `init`,
no `load`) and a board with a legal move. -/
theorem uninitialized_net_out_of_bounds_witness :
    constructedNet "alpha=0.1" Option.none = Except.ok [] ∧
    take_actionChk ⟨[], 1, []⟩ [0, 0, 0, 0, 0, 1, 0, 0, 0, 0, 0, 0, 0, 0, 0, 0] =
      Option.none ∧
    close_episodeChk ⟨[], 1, [⟨4, emptyBoard⟩]⟩ = Option.none := by
  have h := uninitialized_net_out_of_bounds "alpha=0.1" Option.none (by decide) (by decide)
  exact ⟨h.1,
    h.2.1 1 [] [0, 0, 0, 0, 0, 1, 0, 0, 0, 0, 0, 0, 0, 0, 0, 0] ⟨0, by decide, by decide⟩,
    h.2.2 ⟨[], 1, [⟨4, emptyBoard⟩]⟩ rfl (by norm_num) (by decide)⟩

theorem slide_reward_nonneg (b : Board) (op : Nat) (h : legalMove b op) :
    0 ≤ (slide b op).2 := by
  unfold legalMove at h
  unfold slide at h ⊢
  dsimp only at h ⊢
  split_ifs at h ⊢ with h1 h2
  · exact absurd rfl h
  · exact absurd rfl h
  · exact Int.natCast_nonneg _

theorem estimate_value_init (b : Board) : estimate_value init_weights b = 0 := by
  have htab : ∀ i, i < 8 → tableAt init_weights i = ⟨25 * 25 * 25 * 25, fun _ => 0⟩ := by
    intro i hi
    unfold tableAt init_weights
    rw [List.getD_eq_getElem?_getD, List.getElem?_replicate, if_pos hi]
    rfl
  unfold estimate_value
  rw [htab 0 (by omega), htab 1 (by omega), htab 2 (by omega), htab 3 (by omega),
    htab 4 (by omega), htab 5 (by omega), htab 6 (by omega), htab 7 (by omega)]
  norm_num

theorem selInv2_step (net : Net) (b : Board) (P : List Nat) (s : SelSt) (op : Nat)
    (h : selInv2 net b P s) : selInv2 net b (P ++ [op]) (stepOp net b s op) := by
  unfold stepOp
  dsimp only
  by_cases hleg : (slide b op).2 = -1
  · rw [if_pos hleg]
    rcases h with ⟨hs, hall⟩ | ⟨d, hd, hrest⟩
    · refine Or.inl ⟨hs, ?_⟩
      intro q hq hql
      rcases List.mem_append.mp hq with hq' | hq'
      · exact hall q hq' hql
      · rw [List.mem_singleton] at hq'
        subst hq'
        exact absurd hleg hql
    · exact Or.inr ⟨d, List.mem_append_left _ hd, hrest⟩
  · rw [if_neg hleg]
    by_cases hcmp :
        ((slide b op).2 : ℚ) + estimate_value net (slide b op).1 >
          ((s.brew + s.bval : Int) : ℚ)
    · rw [if_pos hcmp]
      have hlegal : legalMove b op := hleg
      have hsc : moveScore net b op > -100000 := by
        rcases h with ⟨hs, _⟩ | ⟨d, _, _, _, _, _, _, _, hthr⟩
        · rw [hs] at hcmp
          unfold selInit at hcmp
          unfold moveScore
          calc ((-100000 : ℚ)) = (((-1 + -99999 : Int)) : ℚ) := by norm_num
            _ < _ := hcmp
        · unfold moveScore
          calc ((-100000 : ℚ)) ≤ (((s.brew + s.bval : Int)) : ℚ) := by
                exact_mod_cast hthr
            _ < _ := hcmp
      have hR : 0 ≤ (slide b op).2 := slide_reward_nonneg b op hlegal
      refine Or.inr ⟨op, List.mem_append_right _ (List.mem_singleton.mpr rfl),
        hlegal, rfl, rfl, rfl, rfl, hsc, ?_⟩
      dsimp only
      by_cases hv : 0 ≤ estimate_value net (slide b op).1
      · have hfl : (0 : Int) ≤ ⌊estimate_value net (slide b op).1⌋ :=
          Int.le_floor.mpr (by exact_mod_cast hv)
        unfold truncToInt
        rw [if_pos hv]
        omega
      · have hce : (truncToInt (estimate_value net (slide b op).1) : ℚ) ≥
            estimate_value net (slide b op).1 := by
          unfold truncToInt
          rw [if_neg hv]
          exact Int.le_ceil _
        have : ((slide b op).2 + truncToInt (estimate_value net (slide b op).1) : Int) >
            (-100000 : Int) := by
          have h1 : (((slide b op).2 + truncToInt (estimate_value net (slide b op).1) : Int) : ℚ) >
              (-100000 : ℚ) := by
            push_cast
            unfold moveScore at hsc
            nlinarith [hce]
          exact_mod_cast h1
        omega
    · rw [if_neg hcmp]
      rcases h with ⟨hs, hall⟩ | ⟨d, hd, hrest⟩
      · refine Or.inl ⟨hs, ?_⟩
        intro q hq hql
        rcases List.mem_append.mp hq with hq' | hq'
        · exact hall q hq' hql
        · rw [List.mem_singleton] at hq'
          subst hq'
          rw [hs] at hcmp
          unfold selInit at hcmp
          unfold moveScore
          have := not_lt.mp hcmp
          calc ((slide b q).2 : ℚ) + estimate_value net (slide b q).1
              ≤ (((-1 + -99999 : Int)) : ℚ) := this
            _ = (-100000 : ℚ) := by norm_num
      · exact Or.inr ⟨d, List.mem_append_left _ hd, hrest⟩

theorem selInv1_step (net : Net) (b : Board) (P : List Nat) (s : SelSt) (op : Nat)
    (hord : ∀ q ∈ P, q < op)
    (hint : legalMove b op → ∃ z : Int,
      estimate_value net (slide b op).1 = (z : ℚ) ∧ -99999 < z)
    (h : selInv1 net b P s) : selInv1 net b (P ++ [op]) (stepOp net b s op) := by
  unfold stepOp
  dsimp only
  by_cases hleg : (slide b op).2 = -1
  · rw [if_pos hleg]
    rcases h with ⟨hs, hall⟩ | ⟨d, hd, hdleg, h1, h2, h3, h4, hmax, htie⟩
    · refine Or.inl ⟨hs, ?_⟩
      intro q hq
      rcases List.mem_append.mp hq with hq' | hq'
      · exact hall q hq'
      · rw [List.mem_singleton] at hq'
        subst hq'
        exact fun hql => hql hleg
    · refine Or.inr ⟨d, List.mem_append_left _ hd, hdleg, h1, h2, h3, h4, ?_, ?_⟩
      · intro q hq hql
        rcases List.mem_append.mp hq with hq' | hq'
        · exact hmax q hq' hql
        · rw [List.mem_singleton] at hq'
          subst hq'
          exact absurd hleg hql
      · intro q hq hql heq
        rcases List.mem_append.mp hq with hq' | hq'
        · exact htie q hq' hql heq
        · rw [List.mem_singleton] at hq'
          subst hq'
          exact absurd hleg hql
  · rw [if_neg hleg]
    have hlegal : legalMove b op := hleg
    obtain ⟨z, hz, hzgt⟩ := hint hlegal
    have hR : 0 ≤ (slide b op).2 := slide_reward_nonneg b op hlegal
    rcases h with ⟨hs, hall⟩ | ⟨d, hd, hdleg, h1, h2, h3, h4, hmax, htie⟩
    · rw [hs]
      have hcmp : ((slide b op).2 : ℚ) + estimate_value net (slide b op).1 >
          ((selInit.brew + selInit.bval : Int) : ℚ) := by
        unfold selInit
        rw [hz]
        exact_mod_cast show (slide b op).2 + z > (-1 + -99999 : Int) by omega
      rw [if_pos hcmp]
      refine Or.inr ⟨op, List.mem_append_right _ (List.mem_singleton.mpr rfl),
        hlegal, rfl, rfl, ?_, rfl, ?_, ?_⟩
      · dsimp only
        rw [hz, truncToInt_intCast]
      · intro q hq hql
        rcases List.mem_append.mp hq with hq' | hq'
        · exact absurd hql (hall q hq')
        · rw [List.mem_singleton] at hq'
          subst hq'
          exact le_refl _
      · intro q hq hql _
        rcases List.mem_append.mp hq with hq' | hq'
        · exact absurd hql (hall q hq')
        · rw [List.mem_singleton] at hq'
          subst hq'
          exact le_refl _
    · have hthr : ((s.brew + s.bval : Int) : ℚ) = moveScore net b d := by
        unfold moveScore
        push_cast
        rw [h2, h3]
      by_cases hcmp : ((slide b op).2 : ℚ) + estimate_value net (slide b op).1 >
          ((s.brew + s.bval : Int) : ℚ)
      · rw [if_pos hcmp]
        have hgt : moveScore net b op > moveScore net b d := by
          rw [← hthr]
          exact hcmp
        refine Or.inr ⟨op, List.mem_append_right _ (List.mem_singleton.mpr rfl),
          hlegal, rfl, rfl, ?_, rfl, ?_, ?_⟩
        · dsimp only
          rw [hz, truncToInt_intCast]
        · intro q hq hql
          rcases List.mem_append.mp hq with hq' | hq'
          · exact le_trans (hmax q hq' hql) (le_of_lt hgt)
          · rw [List.mem_singleton] at hq'
            subst hq'
            exact le_refl _
        · intro q hq hql heq
          rcases List.mem_append.mp hq with hq' | hq'
          · exact absurd heq (ne_of_lt (lt_of_le_of_lt (hmax q hq' hql) hgt))
          · rw [List.mem_singleton] at hq'
            subst hq'
            exact le_refl _
      · rw [if_neg hcmp]
        have hle : moveScore net b op ≤ moveScore net b d := by
          rw [← hthr]
          exact not_lt.mp hcmp
        refine Or.inr ⟨d, List.mem_append_left _ hd, hdleg, h1, h2, h3, h4, ?_, ?_⟩
        · intro q hq hql
          rcases List.mem_append.mp hq with hq' | hq'
          · exact hmax q hq' hql
          · rw [List.mem_singleton] at hq'
            subst hq'
            exact hle
        · intro q hq hql heq
          rcases List.mem_append.mp hq with hq' | hq'
          · exact htie q hq' hql heq
          · rw [List.mem_singleton] at hq'
            subst hq'
            exact le_of_lt (hord d hd)

/-- Claim C2 (amended): `take_action` returns the no-action terminal
signal `action::slide(-1)` iff every legal direction scores
`reward + value ≤ −100000` (the `best_reward + best_value = −1 + −99999`
initialization) — in particular iff no legal move exists whenever some
legal direction scores above −100000, e.g. always on nonnegative value
estimates; in the no-action case the player is unchanged, and otherwise
exactly one `{reward, resulting_state}` step for the winning direction is
appended and that direction's slide action is returned. -/
theorem take_action_no_action_iff (p : Player) (b : Board) :
    ((take_action p b).2 = Act.slide (-1) ↔
      ∀ op, op < 4 → legalMove b op → moveScore p.net b op ≤ -100000) ∧
    ((take_action p b).2 = Act.slide (-1) → (take_action p b).1 = p) ∧
    ((∀ op, op < 4 → ¬ legalMove b op) → take_action p b = (p, Act.slide (-1))) ∧
    (∀ op0, op0 < 4 → legalMove b op0 → -100000 < moveScore p.net b op0 →
      ∃ d : Nat, d < 4 ∧ legalMove b d ∧ -100000 < moveScore p.net b d ∧
        (take_action p b).2 = Act.slide ((d : Int)) ∧
        (take_action p b).1.history =
          p.history ++ [⟨(slide b d).2, (slide b d).1⟩] ∧
        (take_action p b).1.net = p.net ∧
        (take_action p b).1.alpha = p.alpha) := by
  have hmem : ∀ op : Nat, op < 4 → op ∈ [0, 1, 2, 3] := by
    intro op hop
    interval_cases op <;> simp
  have hfin : selInv2 p.net b [0, 1, 2, 3]
      ([0, 1, 2, 3].foldl (stepOp p.net b) selInit) := by
    have h0 : selInv2 p.net b [] selInit := Or.inl ⟨rfl, by simp⟩
    have h4 := selInv2_step p.net b _ _ 3 (selInv2_step p.net b _ _ 2
      (selInv2_step p.net b _ _ 1 (selInv2_step p.net b [] selInit 0 h0)))
    simpa using h4
  rcases hfin with ⟨hs, hall⟩ | ⟨d, hd, hdleg, h1, h2, h3b, h4b, hsc, hthr⟩
  · have hta : take_action p b = (p, Act.slide (-1)) := by
      unfold take_action
      dsimp only
      rw [hs]
      simp [selInit]
    refine ⟨?_, fun _ => by rw [hta], fun _ => hta, ?_⟩
    · constructor
      · intro _ op hop hleg
        exact hall op (hmem op hop) hleg
      · intro _
        rw [hta]
    · intro op0 hop0 hleg0 hsc0
      exact absurd hsc0 (not_lt.mpr (hall op0 (hmem op0 hop0) hleg0))
  · have hd4 : d < 4 := by
      have hdd := hd
      simp [List.mem_cons] at hdd
      omega
    have hbop : ((d : Int)) ≠ -1 := by
      have : (0 : Int) ≤ (d : Int) := Int.natCast_nonneg d
      omega
    have hta : take_action p b =
        ({ p with history := p.history ++ [⟨(slide b d).2, (slide b d).1⟩] },
          Act.slide ((d : Int))) := by
      unfold take_action
      dsimp only
      rw [h1, h2, h4b, if_pos hbop]
    refine ⟨?_, ?_, ?_, ?_⟩
    · rw [hta]
      constructor
      · intro habs
        simp only [Act.slide.injEq] at habs
        exact absurd habs hbop
      · intro hR
        exact absurd (hR d hd4 hdleg) (not_le.mpr hsc)
    · rw [hta]
      intro habs
      simp only [Act.slide.injEq] at habs
      exact absurd habs hbop
    · intro hnl
      exact absurd hdleg (hnl d hd4)
    · intro op0 hop0 hleg0 hsc0
      exact ⟨d, hd4, hdleg, hsc, by rw [hta], by rw [hta], by rw [hta], by rw [hta]⟩

/-- Counterexample to C2 as stated: on `cexBoard` direction 0 is legal,
yet with the weights `cexNet2` (every after-state valued −200000, below
the −100000 loop initialization) `take_action` returns the no-action
signal and appends nothing to the history. -/
theorem take_action_misses_legal_move_counterexample :
    legalMove cexBoard 0 ∧
    (take_action ⟨cexNet2, 0, []⟩ cexBoard).2 = Act.slide (-1) ∧
    (take_action ⟨cexNet2, 0, []⟩ cexBoard).1.history = [] := by
  refine ⟨by decide, ?_, ?_⟩ <;>
    norm_num [take_action, stepOp, selInit, slide, slideDir, slideUpB, slideRightB,
      slideDownB, slideLeftB, lineLeft, mergeLine, getRow, getCol, ofRows, ofCols,
      cell, cexBoard, cexNet2, estimate_value, tableAt, extract_feature, truncToInt,
      wdefault, emptyBoard, List.replicate_succ]

/-- Witness for the amended C2 on a zero net: direction 0 wins and its
step is appended. -/
theorem take_action_no_action_iff_witness :
    ∃ d : Nat, d < 4 ∧ legalMove cexBoard d ∧
      -100000 < moveScore init_weights cexBoard d ∧
      (take_action ⟨init_weights, 0, []⟩ cexBoard).2 = Act.slide ((d : Int)) ∧
      (take_action ⟨init_weights, 0, []⟩ cexBoard).1.history =
        [] ++ [⟨(slide cexBoard d).2, (slide cexBoard d).1⟩] ∧
      (take_action ⟨init_weights, 0, []⟩ cexBoard).1.net = init_weights ∧
      (take_action ⟨init_weights, 0, []⟩ cexBoard).1.alpha = 0 :=
  (take_action_no_action_iff ⟨init_weights, 0, []⟩ cexBoard).2.2.2 0 (by omega)
    (by decide)
    (by norm_num [moveScore, slide, slideDir, slideUpB, slideRightB, slideDownB,
      slideLeftB, lineLeft, mergeLine, getRow, getCol, ofRows, ofCols, cell,
      cexBoard, init_weights, estimate_value, tableAt, extract_feature, wdefault,
      List.replicate_succ])

/-- Claim C1 (amended): whenever every legal direction's value estimate
is an integer above −99999 — so that the `int best_value` truncation in
`take_action` is lossless and the −99999 initialization cannot mask a
move — the selected direction is the first (lowest-numbered in the fixed
order 0,1,2,3, ties included) legal direction maximizing
`reward + value`; the selection is a pure function of board and weights
(no randomness).  With fractional value estimates the truncation can
select a non-maximizing direction (see the counterexample). -/
theorem take_action_first_argmax_of_int_values (p : Player) (b : Board)
    (hint : ∀ op, op < 4 → legalMove b op →
      ∃ z : Int, estimate_value p.net (slide b op).1 = ((z : ℚ)) ∧ -99999 < z)
    (hex : ∃ op, op < 4 ∧ legalMove b op) :
    ∃ d : Nat, d < 4 ∧ legalMove b d ∧
      (take_action p b).2 = Act.slide ((d : Int)) ∧
      (∀ op, op < 4 → legalMove b op →
        moveScore p.net b op ≤ moveScore p.net b d) ∧
      (∀ op, op < 4 → legalMove b op →
        moveScore p.net b op = moveScore p.net b d → d ≤ op) := by
  have hmem : ∀ op : Nat, op < 4 → op ∈ [0, 1, 2, 3] := by
    intro op hop
    interval_cases op <;> simp
  have hfin : selInv1 p.net b [0, 1, 2, 3]
      ([0, 1, 2, 3].foldl (stepOp p.net b) selInit) := by
    have h0 : selInv1 p.net b [] selInit := Or.inl ⟨rfl, by simp⟩
    have s1 := selInv1_step p.net b [] selInit 0 (by simp) (hint 0 (by omega)) h0
    have s2 := selInv1_step p.net b _ _ 1
      (by intro q hq; simp at hq; omega) (hint 1 (by omega)) s1
    have s3 := selInv1_step p.net b _ _ 2
      (by intro q hq; simp at hq; omega) (hint 2 (by omega)) s2
    have s4 := selInv1_step p.net b _ _ 3
      (by intro q hq; simp at hq; omega) (hint 3 (by omega)) s3
    simpa using s4
  rcases hfin with ⟨hs, hall⟩ | ⟨d, hd, hdleg, h1, h2, h3b, h4b, hmax, htie⟩
  · obtain ⟨op, hop, hleg⟩ := hex
    exact absurd hleg (hall op (hmem op hop))
  · have hd4 : d < 4 := by
      have hdd := hd
      simp [List.mem_cons] at hdd
      omega
    have hbop : ((d : Int)) ≠ -1 := by
      have : (0 : Int) ≤ (d : Int) := Int.natCast_nonneg d
      omega
    have hta : (take_action p b).2 = Act.slide ((d : Int)) := by
      unfold take_action
      dsimp only
      rw [h1, if_pos hbop]
    exact ⟨d, hd4, hdleg, hta,
      fun op hop hleg => hmax op (hmem op hop) hleg,
      fun op hop hleg heq => htie op (hmem op hop) hleg heq⟩

/-- Counterexample to C1 as stated: on `cexBoard` with `cexNet1`,
directions 0 and 1 are both legal with reward 0, direction 0's
`reward + value = 7/8` strictly exceeds direction 1's `1/2`, yet the
code selects direction 1 — `best_value` is an `int`, so direction 0's
7/8 was recorded truncated to 0 and `1/2 > 0` replaced it. -/
theorem take_action_not_argmax_counterexample :
    legalMove cexBoard 0 ∧ legalMove cexBoard 1 ∧
    moveScore cexNet1 cexBoard 1 < moveScore cexNet1 cexBoard 0 ∧
    (take_action ⟨cexNet1, 0, []⟩ cexBoard).2 = Act.slide 1 := by
  refine ⟨by decide, by decide, ?_, ?_⟩ <;>
    norm_num [take_action, stepOp, selInit, moveScore, slide, slideDir, slideUpB,
      slideRightB, slideDownB, slideLeftB, lineLeft, mergeLine, getRow, getCol,
      ofRows, ofCols, cell, cexBoard, cexNet1, estimate_value, tableAt,
      extract_feature, truncToInt, wdefault, emptyBoard, List.replicate_succ]

/-- Witness for the amended C1 on a zero net (all estimates are the
integer 0): the first legal direction of `cexBoard` wins. -/
theorem take_action_first_argmax_witness :
    ∃ d : Nat, d < 4 ∧ legalMove cexBoard d ∧
      (take_action ⟨init_weights, 0, []⟩ cexBoard).2 = Act.slide ((d : Int)) ∧
      (∀ op, op < 4 → legalMove cexBoard op →
        moveScore init_weights cexBoard op ≤ moveScore init_weights cexBoard d) ∧
      (∀ op, op < 4 → legalMove cexBoard op →
        moveScore init_weights cexBoard op = moveScore init_weights cexBoard d →
          d ≤ op) :=
  take_action_first_argmax_of_int_values ⟨init_weights, 0, []⟩ cexBoard
    (fun _ _ _ => ⟨0, by rw [estimate_value_init]; norm_num, by norm_num⟩)
    ⟨0, by omega, by decide⟩
